import Mathlib

/-
Verification of the forecast allocation engine of the `fdm` repository
(`app/services/forecast.py`), its HTTP gate (`app/routers/forecast.py`) and
the bulk-replace upload handler (`app/routers/upload.py`).

The Python code is shallowly embedded: Python floats are modelled as exact
rationals (ℚ), Python ints as ℤ, SQLAlchemy tables as lists of row
structures, and the ORM queries as list operations.  Python's stable
`list.sort(key=..., reverse=True)` is modelled by Mathlib's stable
`List.insertionSort` over the reversed order on the sort key: any two stable
sorts agree extensionally, so this is a faithful model of CPython's Timsort.
-/

namespace FDM

/-- Calendar dates as carried by the Python `datetime.date` values of the
repository: a year, a month and a day.  The code only uses equality and the
year/month arithmetic of `Forecaster._get_month_weight`; no validity range is
needed for the claims. -/
structure PyDate where
  year : ℤ
  month : ℤ
  day : ℤ
deriving DecidableEq

/-- Python `int(x)` applied to an exact real value: truncation toward zero
(floor for non-negative arguments, ceiling for negative ones). -/
def pyTrunc (q : ℚ) : ℤ := if 0 ≤ q then ⌊q⌋ else ⌈q⌉

/-- Row of the `product_groups` table (`app/models.py`). -/
structure ProductGroup where
  id : ℤ
  name : String
deriving DecidableEq

/-- Row of the `steel_grades` table (`app/models.py`). -/
structure SteelGrade where
  id : ℤ
  name : String
  product_group_id : ℤ
deriving DecidableEq

/-- Row of the `monthly_forecasts` table (`app/models.py`).  The surrogate
primary key is omitted: it is never read by the code under verification. -/
structure MonthlyForecast where
  product_group_id : ℤ
  month : PyDate
  heats : ℤ
deriving DecidableEq

/-- Row of the `production_history` table (`app/models.py`).  The `tons`
float column is modelled as an exact rational. -/
structure ProductionHistory where
  steel_grade_id : ℤ
  month : PyDate
  tons : ℚ
deriving DecidableEq

/-- Result row of the query in `Forecaster._process_product_group` selecting
`SteelGrade.name, ProductionHistory.month, ProductionHistory.tons`. -/
structure HistoryRow where
  name : String
  month : PyDate
  tons : ℚ
deriving DecidableEq

/-- Output schema `GradeForecast` (`app/schemas.py`). -/
structure GradeForecast where
  grade : String
  product_group : String
  heats : ℤ
deriving DecidableEq

/-- Database state: the tables read or written by the code under
verification (`daily_schedules` is never touched by it). -/
structure Db where
  product_groups : List ProductGroup
  steel_grades : List SteelGrade
  monthly_forecasts : List MonthlyForecast
  production_history : List ProductionHistory

/-- Class attribute `Forecaster.MONTH_WEIGHTS = [3, 2, 1]`. -/
def MONTH_WEIGHTS : List ℚ := [3, 2, 1]

/-- Local variable `months_ago` of `Forecaster._get_month_weight`: the
distance in whole months between a history record's month and the target. -/
def monthsAgo (production_month target_month : PyDate) : ℤ :=
  (target_month.year - production_month.year) * 12 +
    (target_month.month - production_month.month)

/-- Embeds `Forecaster._get_month_weight`: weight 3/2/1 for the first, second
and third month before the target, and the last list entry (1) as the default
for any distance outside `[1, len(MONTH_WEIGHTS)]`.  `getLastD`/`getD`
defaults are never reached: the list is non-empty and the index is guarded. -/
def getMonthWeight (production_month target_month : PyDate) : ℚ :=
  if monthsAgo production_month target_month ≤ 0 ∨
      (MONTH_WEIGHTS.length : ℤ) < monthsAgo production_month target_month then
    MONTH_WEIGHTS.getLastD 0
  else
    MONTH_WEIGHTS.getD (monthsAgo production_month target_month - 1).toNat 0

/-- One step of the Python dict accumulation
`grade_weighted_totals[name] = grade_weighted_totals.get(name, 0) + v`.
A Python dict is modelled as an insertion-ordered association list with
unique keys: an existing key has its value updated in place, a new key is
appended. -/
def dictAdd (d : List (String × ℚ)) (k : String) (v : ℚ) : List (String × ℚ) :=
  if d.any fun p => decide (p.1 = k) then
    d.map fun p => if p.1 = k then (p.1, p.2 + v) else p
  else
    d ++ [(k, v)]

/-- Embeds the `grade_weighted_totals` accumulation loop of
`Forecaster._process_product_group`: for each history row, `tons * weight`
is added to the row's grade entry.  (`record.tons or 0` only guards a SQL
NULL, which the non-nullable column model excludes.) -/
def gradeWeightedTotals (history : List HistoryRow) (target_month : PyDate) :
    List (String × ℚ) :=
  history.foldl
    (fun d r => dictAdd d r.name (r.tons * getMonthWeight r.month target_month)) []

/-- Embeds `Forecaster._distribute_equally`.  Python `//` on ints is floor
division, i.e. `Int.fdiv`; `int(total_heats)` is the identity on an int. -/
def distributeEqually (grades : List String) (group_name : String)
    (total_heats : ℤ) : List GradeForecast :=
  let heats_per_grade := total_heats.fdiv grades.length
  grades.map fun g =>
    { grade := g, product_group := group_name, heats := heats_per_grade }

/-- One iteration of the `allocations` loop of
`Forecaster._distribute_proportionally`: the triple
`(grade_name, floored, remainder)` computed from one dict item. -/
def allocationOf (group_weighted_total : ℚ) (total_heats : ℤ)
    (p : String × ℚ) : String × ℤ × ℚ :=
  let ratio := p.2 / group_weighted_total
  let raw := ratio * (total_heats : ℚ)
  let floored := pyTrunc raw
  (p.1, floored, raw - (floored : ℚ))

/-- The final loop of `Forecaster._distribute_proportionally`:
`heats = floored + (1 if i < leftover else 0)` over the sorted allocation
list.  The enumeration index is carried as a decreasing counter: the element
at index `i` is processed with counter `k = leftover - i`, so the guard
`0 < k` is exactly `i < leftover`. -/
def giveExtras : List (String × ℤ × ℚ) → ℤ → List (String × ℤ)
  | [], _ => []
  | a :: rest, k =>
    (a.1, a.2.1 + if 0 < k then 1 else 0) :: giveExtras rest (k - 1)

/-- Embeds `Forecaster._distribute_proportionally`: floor each grade's exact
proportional share, sort by fractional remainder descending with Python's
stable sort, and give one extra heat to each of the first `leftover` grades
in that order. -/
def distributeProportionally (grade_weighted_totals : List (String × ℚ))
    (group_name : String) (total_heats : ℤ) (group_weighted_total : ℚ) :
    List GradeForecast :=
  let allocations :=
    grade_weighted_totals.map (allocationOf group_weighted_total total_heats)
  let floored_total := (allocations.map fun a => a.2.1).sum
  let leftover := total_heats - floored_total
  let sorted := allocations.insertionSort fun a b => b.2.2 ≤ a.2.2
  (giveExtras sorted leftover).map fun q =>
    { grade := q.1, product_group := group_name, heats := q.2 }

/-- Embeds the history query of `Forecaster._process_product_group`: the join
of `steel_grades` (filtered to the group) with `production_history` on the
grade id, projected to `(name, month, tons)` rows. -/
def queryHistory (db : Db) (group_id : ℤ) : List HistoryRow :=
  (db.steel_grades.filter fun g => decide (g.product_group_id = group_id)).flatMap
    fun g =>
      (db.production_history.filter fun h => decide (h.steel_grade_id = g.id)).map
        fun h => { name := g.name, month := h.month, tons := h.tons }

/-- Embeds `Forecaster._process_product_group`: fetch the group's history,
return `[]` when there is none, otherwise aggregate weighted totals per grade
and dispatch on whether the group weighted total is zero.  The ORM
relationship `forecast.product_group.name` is modelled by looking the group
row up by id (`""` stands for the unreachable missing-row case, which the
foreign key excludes). -/
def processProductGroup (db : Db) (forecast : MonthlyForecast)
    (target_month : PyDate) : List GradeForecast :=
  let group_name :=
    ((db.product_groups.find? fun g =>
        decide (g.id = forecast.product_group_id)).map ProductGroup.name).getD ""
  let total_heats := forecast.heats
  let history := queryHistory db forecast.product_group_id
  if history = [] then []
  else
    let gwt := gradeWeightedTotals history target_month
    let group_weighted_total := (gwt.map Prod.snd).sum
    if group_weighted_total = 0 then
      distributeEqually (gwt.map Prod.fst) group_name total_heats
    else
      distributeProportionally gwt group_name total_heats group_weighted_total

/-- Embeds `Forecaster.calculate`: the `MonthlyForecast` query joined with
`ProductGroup` (an inner join, so forecasts whose group row is missing are
dropped) and filtered to the target month, then the accumulation loop
`results.extend(self._process_product_group(forecast, target_month))`. -/
def calculate (db : Db) (target_month : PyDate) : List GradeForecast :=
  let forecasts := db.monthly_forecasts.filter fun f =>
    decide (f.month = target_month) &&
      db.product_groups.any fun g => decide (g.id = f.product_group_id)
  forecasts.foldl (fun results f => results ++ processProductGroup db f target_month) []

/-- Outcome of an HTTP handler: either an `HTTPException` with a status code
and detail, or a success payload. -/
inductive ForecastResult where
  | httpError (status : ℤ) (detail : String)
  | ok (forecasts : List GradeForecast)
deriving DecidableEq

/-- Module constant `AVAILABLE_FORECASTS = {(2024, 9)}` of
`app/routers/forecast.py`. -/
def AVAILABLE_FORECASTS : List (ℤ × ℤ) := [(2024, 9)]

/-- Embeds the `get_forecast` route handler of `app/routers/forecast.py`:
reject any (year, month) outside `AVAILABLE_FORECASTS` with HTTP 400 before
constructing the Forecaster, otherwise run `calculate` on the first day of
the month.  The response's human-readable month name is not modelled; the
payload keeps the forecast list the response wraps. -/
def getForecast (year month : ℤ) (db : Db) : ForecastResult :=
  if (year, month) ∈ AVAILABLE_FORECASTS then
    ForecastResult.ok (calculate db { year := year, month := month, day := 1 })
  else
    ForecastResult.httpError 400
      "Forecast for this month is not available. This version only supports September 2024 (2024/9)."

/-- Parser record `MonthlyForecastRecord` (`app/schemas.py`). -/
structure MonthlyForecastRecord where
  product_group : String
  month : PyDate
  heats : ℤ
deriving DecidableEq

/-- Outcome of an upload handler: an `HTTPException` or an `UploadResponse`. -/
inductive UploadResult where
  | httpError (status : ℤ) (detail : String)
  | ok (message : String) (records_processed : ℕ)
deriving DecidableEq

/-- Embeds `get_or_create_product_group` acting on the staged session state:
look the group up by name, otherwise insert a new row with the next
autoincrement id.  Returns the group row, the updated staged table and the
next fresh id. -/
def getOrCreateProductGroup (groups : List ProductGroup) (next_id : ℤ)
    (name : String) : ProductGroup × List ProductGroup × ℤ :=
  match groups.find? fun g => decide (g.name = name) with
  | some g => (g, groups, next_id)
  | none => (⟨next_id, name⟩, groups ++ [⟨next_id, name⟩], next_id + 1)

/-- Embeds the `upload_monthly_forecast` handler of `app/routers/upload.py`.
The SQLAlchemy session is modelled transactionally: the
`db.query(MonthlyForecast).delete()` and the inserted rows are staged and
become visible only at `db.commit()`.  `parsed = Except.error e` models
`Parser.parse_monthly_forecast` raising, caught by the `except Exception`
arm (rollback, HTTP 500); `commit_ok = false` models a storage failure while
committing the replace, likewise caught, rolled back and surfaced as HTTP
500; the empty-records check re-raises its HTTP 400 unchanged.  `next_id`
seeds the autoincrement ids of newly created product groups. -/
def uploadMonthlyForecast (db : Db)
    (parsed : Except String (List MonthlyForecastRecord))
    (commit_ok : Bool) (next_id : ℤ) : Db × UploadResult :=
  match parsed with
  | Except.error e => (db, UploadResult.httpError 500 ("Error processing file: " ++ e))
  | Except.ok records =>
    if records = [] then
      (db, UploadResult.httpError 400 "No valid records found in the uploaded file")
    else
      let staged := records.foldl
        (fun (st : List ProductGroup × List MonthlyForecast × ℤ) r =>
          let gg := getOrCreateProductGroup st.1 st.2.2 r.product_group
          (gg.2.1,
            st.2.1 ++ [{ product_group_id := gg.1.id, month := r.month, heats := r.heats }],
            gg.2.2))
        (db.product_groups, [], next_id)
      if commit_ok then
        ({ db with product_groups := staged.1, monthly_forecasts := staged.2.1 },
          UploadResult.ok "Monthly forecast uploaded successfully" records.length)
      else
        (db, UploadResult.httpError 500 "Error processing file: commit failed")

/-- Value table of `getMonthWeight`: weight 3 at distance 1, 2 at distance 2,
and 1 everywhere else (distance 3 hits the last table entry, any distance
outside `[1, 3]` hits the default branch, which also returns 1). -/
lemma getMonthWeight_eq (pm tm : PyDate) :
    getMonthWeight pm tm =
      if monthsAgo pm tm = 1 then 3
      else if monthsAgo pm tm = 2 then 2 else 1 := by
  unfold getMonthWeight
  have hlen : (MONTH_WEIGHTS.length : ℤ) = 3 := by decide
  by_cases h : monthsAgo pm tm ≤ 0 ∨ (MONTH_WEIGHTS.length : ℤ) < monthsAgo pm tm
  · rw [if_pos h]
    rw [hlen] at h
    rw [if_neg (by omega), if_neg (by omega)]
    rfl
  · rw [if_neg h]
    rw [hlen] at h
    push_neg at h
    have h3 : monthsAgo pm tm = 1 ∨ monthsAgo pm tm = 2 ∨ monthsAgo pm tm = 3 := by omega
    rcases h3 with h3 | h3 | h3 <;> rw [h3] <;> norm_num <;> rfl

/-- C4: the recency weight for a history record at month distance
`d = (target.year - record.year) * 12 + (target.month - record.month)` is 3
for `d = 1`, 2 for `d = 2`, 1 for `d = 3` and 1 for every other distance;
a grade's weighted total sums `tons * weight`, so 10 tons at distance 1 and
30 tons at distance 3 both give weighted total 30. -/
theorem month_weight_spec :
    (∀ pm tm : PyDate, monthsAgo pm tm = 1 → getMonthWeight pm tm = 3)
    ∧ (∀ pm tm : PyDate, monthsAgo pm tm = 2 → getMonthWeight pm tm = 2)
    ∧ (∀ pm tm : PyDate, monthsAgo pm tm = 3 → getMonthWeight pm tm = 1)
    ∧ (∀ pm tm : PyDate, monthsAgo pm tm ≠ 1 → monthsAgo pm tm ≠ 2 →
        monthsAgo pm tm ≠ 3 → getMonthWeight pm tm = 1)
    ∧ gradeWeightedTotals
        [⟨"A", ⟨2024, 8, 1⟩, 10⟩, ⟨"B", ⟨2024, 6, 1⟩, 30⟩] ⟨2024, 9, 1⟩
        = [("A", 30), ("B", 30)] := by
  refine ⟨?_, ?_, ?_, ?_, ?_⟩
  · intro pm tm h; rw [getMonthWeight_eq, if_pos h]
  · intro pm tm h; rw [getMonthWeight_eq, if_neg (by omega), if_pos h]
  · intro pm tm h; rw [getMonthWeight_eq, if_neg (by omega), if_neg (by omega)]
  · intro pm tm h1 h2 h3; rw [getMonthWeight_eq, if_neg h1, if_neg h2]
  · norm_num [gradeWeightedTotals, dictAdd, getMonthWeight_eq, monthsAgo]
    decide

/-- Witness for `month_weight_spec`: concrete dates at distances 1, 2, 3 and 0
from September 2024. -/
theorem month_weight_spec_witness :
    getMonthWeight ⟨2024, 8, 1⟩ ⟨2024, 9, 1⟩ = 3
    ∧ getMonthWeight ⟨2024, 7, 1⟩ ⟨2024, 9, 1⟩ = 2
    ∧ getMonthWeight ⟨2024, 6, 1⟩ ⟨2024, 9, 1⟩ = 1
    ∧ getMonthWeight ⟨2024, 9, 1⟩ ⟨2024, 9, 1⟩ = 1 :=
  ⟨month_weight_spec.1 _ _ (by decide), month_weight_spec.2.1 _ _ (by decide),
    month_weight_spec.2.2.1 _ _ (by decide),
    month_weight_spec.2.2.2.1 _ _ (by decide) (by decide) (by decide)⟩

/-- C2: with weighted totals A=100, B=100, C=50 and target 7, the exact
shares are 2.8, 2.8 and 1.4, the floors 2, 2 and 1, and the leftover of 2
goes to A and B (largest remainders, ties kept in enumeration order), giving
the allocation A=3, B=3, C=1 with total 7.  The final conjunct shows the tie
break on a separate input where enumeration order differs from alphabetical
order: grades listed B before A with equal totals and one leftover heat give
the heat to B, not to the alphabetically first grade A. -/
theorem distributeProportionally_hamilton_example :
    ((100 : ℚ) / 250 * 7 = 14 / 5
      ∧ (50 : ℚ) / 250 * 7 = 7 / 5
      ∧ pyTrunc ((100 : ℚ) / 250 * 7) = 2
      ∧ pyTrunc ((50 : ℚ) / 250 * 7) = 1)
    ∧ distributeProportionally [("A", 100), ("B", 100), ("C", 50)] "G" 7 250
        = [⟨"A", "G", 3⟩, ⟨"B", "G", 3⟩, ⟨"C", "G", 1⟩]
    ∧ ((distributeProportionally [("A", 100), ("B", 100), ("C", 50)] "G" 7 250).map
        GradeForecast.heats).sum = 7
    ∧ distributeProportionally [("B", 50), ("A", 50)] "G" 1 100
        = [⟨"B", "G", 1⟩, ⟨"A", "G", 0⟩] := by
  refine ⟨⟨by norm_num, by norm_num, ?_, ?_⟩, ?_, ?_, ?_⟩ <;>
    norm_num [distributeProportionally, allocationOf, pyTrunc, giveExtras,
      List.insertionSort, List.orderedInsert]

/-- Truncation toward zero agrees with the floor on non-negative arguments. -/
lemma pyTrunc_eq_floor {q : ℚ} (h : 0 ≤ q) : pyTrunc q = ⌊q⌋ := if_pos h

/-- Casting the sum of an integer-valued map into ℚ. -/
lemma intCast_sum_map {α : Type} (l : List α) (f : α → ℤ) :
    (((l.map f).sum : ℤ) : ℚ) = (l.map fun a => ((f a : ℤ) : ℚ)).sum := by
  induction l with
  | nil => simp
  | cons a t ih => simp [ih]

/-- Sum of the exact proportional shares over an association list. -/
lemma sum_map_shares (l : List (String × ℚ)) (W T : ℚ) :
    (l.map fun p => p.2 / W * T).sum = (l.map Prod.snd).sum / W * T := by
  induction l with
  | nil => simp
  | cons a t ih =>
    simp only [List.map_cons, List.sum_cons, ih]
    ring

/-- Adding one to every summand adds the length to the sum. -/
lemma sum_map_add_one {α : Type} (l : List α) (f : α → ℚ) :
    (l.map fun a => f a + 1).sum = (l.map f).sum + l.length := by
  induction l with
  | nil => simp
  | cons a t ih =>
    simp only [List.map_cons, List.sum_cons, ih, List.length_cons]
    push_cast
    ring

/-- The extra-heat loop keeps every grade name in place. -/
lemma giveExtras_map_fst (l : List (String × ℤ × ℚ)) (k : ℤ) :
    (giveExtras l k).map Prod.fst = l.map fun a => a.1 := by
  induction l generalizing k with
  | nil => rfl
  | cons a t ih => simp [giveExtras, ih]

/-- Sum of the allocated heats after the extra-heat loop: the floored total
plus one heat for each of the first `k` positions (clamped to the list). -/
lemma giveExtras_sum (l : List (String × ℤ × ℚ)) (k : ℤ) :
    ((giveExtras l k).map Prod.snd).sum
      = (l.map fun a => a.2.1).sum + min (max k 0) (l.length : ℤ) := by
  induction l generalizing k with
  | nil => simp [giveExtras]
  | cons a t ih =>
    simp only [giveExtras, List.map_cons, List.sum_cons, ih, List.length_cons]
    split <;> push_cast <;> omega

/-- Every output of the extra-heat loop is an input's floored value, possibly
plus one. -/
lemma giveExtras_mem {l : List (String × ℤ × ℚ)} {k : ℤ} {p : String × ℤ}
    (hp : p ∈ giveExtras l k) :
    ∃ a ∈ l, p.1 = a.1 ∧ (p.2 = a.2.1 ∨ p.2 = a.2.1 + 1) := by
  induction l generalizing k with
  | nil => simp [giveExtras] at hp
  | cons a t ih =>
    simp only [giveExtras, List.mem_cons] at hp
    rcases hp with hp | hp
    · subst hp
      refine ⟨a, List.mem_cons_self a t, rfl, ?_⟩
      by_cases hk : 0 < k
      · right; simp [hk]
      · left; simp [hk]
    · obtain ⟨b, hb, h1, h2⟩ := ih hp
      exact ⟨b, List.mem_cons_of_mem a hb, h1, h2⟩

/-- With a non-positive counter the extra-heat loop hands out nothing. -/
lemma giveExtras_of_nonpos {l : List (String × ℤ × ℚ)} {k : ℤ} (hk : k ≤ 0) :
    giveExtras l k = l.map fun a => (a.1, a.2.1) := by
  induction l generalizing k with
  | nil => rfl
  | cons a t ih =>
    simp [giveExtras, ih (by omega : k - 1 ≤ 0), if_neg (by omega : ¬0 < k)]

/-- Components of one allocation triple when the group weighted total is
positive and the inputs are non-negative: the floored entry is the floor of
the exact share and the share itself is non-negative. -/
lemma allocationOf_facts {W : ℚ} (hW : 0 < W) (T : ℤ) (hT : 0 ≤ T)
    {p : String × ℚ} (hp : 0 ≤ p.2) :
    allocationOf W T p = (p.1, ⌊p.2 / W * T⌋, p.2 / W * T - ⌊p.2 / W * T⌋)
    ∧ 0 ≤ p.2 / W * T := by
  have hraw : 0 ≤ p.2 / W * T :=
    mul_nonneg (div_nonneg hp hW.le) (by exact_mod_cast hT)
  refine ⟨?_, hraw⟩
  simp [allocationOf, pyTrunc_eq_floor hraw]

/-- C1: for a non-negative target `T` and non-negative grade weighted totals
that are not all zero, the proportional distribution (floor each exact share,
then hand the leftover out one heat at a time) returns heats summing exactly
to `T`. -/
theorem distributeProportionally_sum_eq_target (gwt : List (String × ℚ))
    (group_name : String) (T : ℤ) (hT : 0 ≤ T)
    (hw : ∀ p ∈ gwt, 0 ≤ p.2) (hpos : 0 < (gwt.map Prod.snd).sum) :
    ((distributeProportionally gwt group_name T ((gwt.map Prod.snd).sum)).map
      GradeForecast.heats).sum = T := by
  set W : ℚ := (gwt.map Prod.snd).sum with hWdef
  have hW : 0 < W := hpos
  have hcomp : gwt.map (allocationOf W T)
      = gwt.map fun p => (p.1, ⌊p.2 / W * T⌋, p.2 / W * T - (⌊p.2 / W * T⌋ : ℚ)) :=
    List.map_congr_left fun p hp => (allocationOf_facts hW T hT (hw p hp)).1
  have hfl : (gwt.map (allocationOf W T)).map (fun a => a.2.1)
      = gwt.map fun p => ⌊p.2 / W * T⌋ := by
    rw [hcomp, List.map_map]
    rfl
  have hshares : (gwt.map fun p => p.2 / W * T).sum = (T : ℚ) := by
    rw [sum_map_shares, ← hWdef, div_self hW.ne', one_mul]
  have hle : (((gwt.map fun p => ⌊p.2 / W * T⌋).sum : ℤ) : ℚ) ≤ (T : ℚ) := by
    rw [intCast_sum_map]
    calc (gwt.map fun p => ((⌊p.2 / W * T⌋ : ℤ) : ℚ)).sum
        ≤ (gwt.map fun p => p.2 / W * T).sum :=
          List.sum_le_sum fun p _ => Int.floor_le _
      _ = (T : ℚ) := hshares
  have hge : (T : ℚ) ≤ (((gwt.map fun p => ⌊p.2 / W * T⌋).sum : ℤ) : ℚ) + gwt.length := by
    rw [intCast_sum_map]
    have h1 : (gwt.map fun p => p.2 / W * T).sum
        ≤ (gwt.map fun p => ((⌊p.2 / W * T⌋ : ℤ) : ℚ) + 1).sum :=
      List.sum_le_sum fun p _ => (Int.lt_floor_add_one _).le
    have h2 : (gwt.map fun p => ((⌊p.2 / W * T⌋ : ℤ) : ℚ) + 1).sum
        = (gwt.map fun p => ((⌊p.2 / W * T⌋ : ℤ) : ℚ)).sum + gwt.length :=
      sum_map_add_one gwt _
    linarith [h1, h2, hshares]
  have hfsle : (gwt.map fun p => ⌊p.2 / W * T⌋).sum ≤ T := by exact_mod_cast hle
  have hfsge : T ≤ (gwt.map fun p => ⌊p.2 / W * T⌋).sum + gwt.length := by
    exact_mod_cast hge
  have hperm : ((gwt.map (allocationOf W T)).insertionSort fun a b => b.2.2 ≤ a.2.2).Perm
      (gwt.map (allocationOf W T)) := List.perm_insertionSort _ _
  have hsortfl : (((gwt.map (allocationOf W T)).insertionSort fun a b => b.2.2 ≤ a.2.2).map
      fun a => a.2.1).sum = ((gwt.map (allocationOf W T)).map fun a => a.2.1).sum :=
    (hperm.map _).sum_eq
  have hlen : ((gwt.map (allocationOf W T)).insertionSort fun a b => b.2.2 ≤ a.2.2).length
      = gwt.length := by
    rw [hperm.length_eq, List.length_map]
  have hmap : ∀ l : List (String × ℤ),
      (l.map fun q =>
        ({ grade := q.1, product_group := group_name, heats := q.2 } : GradeForecast)).map
          GradeForecast.heats = l.map Prod.snd := by
    intro l
    rw [List.map_map]
    rfl
  show (((giveExtras ((gwt.map (allocationOf W T)).insertionSort fun a b => b.2.2 ≤ a.2.2)
      (T - ((gwt.map (allocationOf W T)).map fun a => a.2.1).sum)).map fun q =>
        ({ grade := q.1, product_group := group_name, heats := q.2 } : GradeForecast)).map
          GradeForecast.heats).sum = T
  rw [hmap, giveExtras_sum, hsortfl, hfl, hlen]
  omega

/-- Witness for `distributeProportionally_sum_eq_target` at the weighted
totals A=100, B=100, C=50 with target 7. -/
theorem distributeProportionally_sum_eq_target_witness :
    (0 : ℤ) ≤ 7
    ∧ (∀ p ∈ [("A", (100 : ℚ)), ("B", 100), ("C", 50)], 0 ≤ p.2)
    ∧ 0 < (([("A", (100 : ℚ)), ("B", 100), ("C", 50)]).map Prod.snd).sum
    ∧ ((distributeProportionally [("A", 100), ("B", 100), ("C", 50)] "G" 7
        (([("A", (100 : ℚ)), ("B", 100), ("C", 50)]).map Prod.snd).sum).map
          GradeForecast.heats).sum = 7 :=
  ⟨by norm_num, by norm_num, by norm_num,
    distributeProportionally_sum_eq_target _ "G" 7 (by norm_num) (by norm_num) (by norm_num)⟩

/-- Keys of `dictAdd`: unchanged when the key is already present, appended
at the end otherwise (Python dict insertion order). -/
lemma dictAdd_map_fst (d : List (String × ℚ)) (k : String) (v : ℚ) :
    (dictAdd d k v).map Prod.fst
      = if k ∈ d.map Prod.fst then d.map Prod.fst else d.map Prod.fst ++ [k] := by
  have hc : ((d.any fun p => decide (p.1 = k)) = true) ↔ k ∈ d.map Prod.fst := by
    rw [List.any_eq_true]
    constructor
    · rintro ⟨p, hp, hpk⟩
      rw [decide_eq_true_eq] at hpk
      exact List.mem_map.mpr ⟨p, hp, hpk⟩
    · intro h
      obtain ⟨p, hp, hpk⟩ := List.mem_map.mp h
      exact ⟨p, hp, by simp [hpk]⟩
  unfold dictAdd
  by_cases h : k ∈ d.map Prod.fst
  · rw [if_pos (hc.mpr h), if_pos h, List.map_map]
    refine List.map_congr_left fun p _ => ?_
    by_cases hp : p.1 = k <;> simp [hp]
  · rw [if_neg (fun hb => h (hc.mp hb)), if_neg h]
    simp

/-- `dictAdd` preserves distinctness of keys. -/
lemma dictAdd_nodup {d : List (String × ℚ)} {k : String} {v : ℚ}
    (h : (d.map Prod.fst).Nodup) : ((dictAdd d k v).map Prod.fst).Nodup := by
  rw [dictAdd_map_fst]
  by_cases hk : k ∈ d.map Prod.fst
  · rwa [if_pos hk]
  · rw [if_neg hk]
    simp [List.nodup_append, h, hk]

/-- The added key is a key of the result. -/
lemma mem_dictAdd_self (d : List (String × ℚ)) (k : String) (v : ℚ) :
    k ∈ (dictAdd d k v).map Prod.fst := by
  rw [dictAdd_map_fst]
  by_cases h : k ∈ d.map Prod.fst <;> simp [h]

/-- Existing keys survive `dictAdd`. -/
lemma mem_dictAdd_mono {d : List (String × ℚ)} {x : String} (k : String) (v : ℚ)
    (h : x ∈ d.map Prod.fst) : x ∈ (dictAdd d k v).map Prod.fst := by
  rw [dictAdd_map_fst]
  by_cases hk : k ∈ d.map Prod.fst <;> simp [hk, h]

/-- Values stay non-negative under `dictAdd` with a non-negative increment. -/
lemma dictAdd_values_nonneg {d : List (String × ℚ)} {k : String} {v : ℚ}
    (hd : ∀ p ∈ d, 0 ≤ p.2) (hv : 0 ≤ v) : ∀ p ∈ dictAdd d k v, 0 ≤ p.2 := by
  unfold dictAdd
  split
  · intro p hp
    obtain ⟨q, hq, rfl⟩ := List.mem_map.mp hp
    by_cases h : q.1 = k
    · simpa [h] using add_nonneg (hd q hq) hv
    · simpa [h] using hd q hq
  · intro p hp
    rcases List.mem_append.mp hp with h | h
    · exact hd p h
    · simp only [List.mem_singleton] at h
      rw [h]
      exact hv

/-- The month weight is one of the table entries 1, 2, 3. -/
lemma getMonthWeight_mem (pm tm : PyDate) :
    getMonthWeight pm tm = 1 ∨ getMonthWeight pm tm = 2 ∨ getMonthWeight pm tm = 3 := by
  rw [getMonthWeight_eq]
  split
  · right; right; rfl
  · split
    · right; left; rfl
    · left; rfl

/-- The month weight is never negative. -/
lemma getMonthWeight_nonneg (pm tm : PyDate) : 0 ≤ getMonthWeight pm tm := by
  rcases getMonthWeight_mem pm tm with h | h | h <;> rw [h] <;> norm_num

/-- Invariant of the weighted-totals fold: values stay non-negative. -/
lemma foldl_dictAdd_nonneg (hist : List HistoryRow) (tm : PyDate) :
    ∀ d : List (String × ℚ), (∀ p ∈ d, 0 ≤ p.2) → (∀ r ∈ hist, 0 ≤ r.tons) →
      ∀ p ∈ hist.foldl
        (fun d r => dictAdd d r.name (r.tons * getMonthWeight r.month tm)) d, 0 ≤ p.2 := by
  induction hist with
  | nil => intro d hd _ p hp; exact hd p hp
  | cons r t ih =>
    intro d hd hr p hp
    exact ih _
      (dictAdd_values_nonneg hd
        (mul_nonneg (hr r (List.mem_cons_self r t)) (getMonthWeight_nonneg _ _)))
      (fun x hx => hr x (List.mem_cons_of_mem r hx)) p hp

/-- With non-negative tons every grade's weighted total is non-negative. -/
lemma gradeWeightedTotals_nonneg {hist : List HistoryRow} {tm : PyDate}
    (hr : ∀ r ∈ hist, 0 ≤ r.tons) : ∀ p ∈ gradeWeightedTotals hist tm, 0 ≤ p.2 :=
  foldl_dictAdd_nonneg hist tm [] (by simp) hr

/-- Invariant of the weighted-totals fold: keys stay distinct. -/
lemma foldl_dictAdd_nodup (hist : List HistoryRow) (tm : PyDate) :
    ∀ d : List (String × ℚ), ((d.map Prod.fst).Nodup) →
      (((hist.foldl
        (fun d r => dictAdd d r.name (r.tons * getMonthWeight r.month tm)) d).map
          Prod.fst).Nodup) := by
  induction hist with
  | nil => intro d hd; exact hd
  | cons r t ih => intro d hd; exact ih _ (dictAdd_nodup hd)

/-- The aggregated per-grade table has pairwise distinct grade names. -/
lemma gradeWeightedTotals_keys_nodup (hist : List HistoryRow) (tm : PyDate) :
    ((gradeWeightedTotals hist tm).map Prod.fst).Nodup :=
  foldl_dictAdd_nodup hist tm [] (by simp)

/-- Invariant of the weighted-totals fold: keys are never dropped. -/
lemma foldl_dictAdd_mem_mono (hist : List HistoryRow) (tm : PyDate) :
    ∀ d : List (String × ℚ), ∀ x, x ∈ d.map Prod.fst →
      x ∈ (hist.foldl
        (fun d r => dictAdd d r.name (r.tons * getMonthWeight r.month tm)) d).map
          Prod.fst := by
  induction hist with
  | nil => intro d x hx; exact hx
  | cons r t ih => intro d x hx; exact ih _ x (mem_dictAdd_mono _ _ hx)

/-- Every history row's grade name ends up as a key of the fold result. -/
lemma foldl_dictAdd_mem (hist : List HistoryRow) (tm : PyDate) {r : HistoryRow}
    (hr : r ∈ hist) :
    ∀ d : List (String × ℚ),
      r.name ∈ (hist.foldl
        (fun d r => dictAdd d r.name (r.tons * getMonthWeight r.month tm)) d).map
          Prod.fst := by
  induction hist with
  | nil => cases hr
  | cons a t ih =>
    intro d
    rcases List.mem_cons.mp hr with h | h
    · subst h
      exact foldl_dictAdd_mem_mono t tm _ r.name (mem_dictAdd_self _ _ _)
    · exact ih h _

/-- Every history row's grade name appears in the aggregated table. -/
lemma name_mem_gradeWeightedTotals {hist : List HistoryRow} {tm : PyDate}
    {r : HistoryRow} (hr : r ∈ hist) :
    r.name ∈ (gradeWeightedTotals hist tm).map Prod.fst :=
  foldl_dictAdd_mem hist tm hr []

/-- Sum of a constant-valued map. -/
lemma sum_map_constant {α : Type} (l : List α) (c : ℤ) :
    (l.map fun _ => c).sum = l.length * c := by
  induction l with
  | nil => simp
  | cons a t ih =>
    simp only [List.map_cons, List.sum_cons, ih, List.length_cons]
    push_cast
    ring

/-- C5: a product group whose grades have no production history at all
contributes an empty allocation, not zero-heat entries. -/
theorem no_history_gives_empty_allocation (db : Db) (f : MonthlyForecast)
    (t : PyDate) (h : queryHistory db f.product_group_id = []) :
    processProductGroup db f t = [] := by
  simp [processProductGroup, h]

/-- Witness for `no_history_gives_empty_allocation`: a database holding a
product group, one steel grade, a forecast entry for the group, but no
production history rows. -/
theorem no_history_gives_empty_allocation_witness :
    queryHistory ⟨[⟨1, "G"⟩], [⟨1, "A", 1⟩], [⟨1, ⟨2024, 9, 1⟩, 5⟩], []⟩ 1 = []
    ∧ processProductGroup ⟨[⟨1, "G"⟩], [⟨1, "A", 1⟩], [⟨1, ⟨2024, 9, 1⟩, 5⟩], []⟩
        ⟨1, ⟨2024, 9, 1⟩, 5⟩ ⟨2024, 9, 1⟩ = [] :=
  ⟨by simp [queryHistory],
    no_history_gives_empty_allocation _ _ _ (by simp [queryHistory])⟩

/-- Sum of the heats handed out by the equal-split fallback: every grade gets
the same floor quotient. -/
lemma distributeEqually_heats_sum (grades : List String) (gname : String) (T : ℤ) :
    ((distributeEqually grades gname T).map GradeForecast.heats).sum
      = grades.length * T.fdiv grades.length := by
  unfold distributeEqually
  rw [List.map_map]
  show (grades.map fun _ => T.fdiv grades.length).sum
    = grades.length * T.fdiv grades.length
  exact sum_map_constant grades _

/-- C3: when the group's grades have history rows but every grade's weighted
total is zero, the equal-split fallback is taken: each of the `n` aggregated
grades receives exactly `T.fdiv n` heats (Python `T // n`), and the group
total is `n * (T.fdiv n)` — the remainder `T mod n` is dropped. -/
theorem equal_split_floor_drops_remainder (db : Db) (f : MonthlyForecast)
    (t : PyDate) (hh : queryHistory db f.product_group_id ≠ [])
    (hz : ∀ p ∈ gradeWeightedTotals (queryHistory db f.product_group_id) t, p.2 = 0) :
    (∀ g ∈ processProductGroup db f t,
      g.heats = f.heats.fdiv
        ((gradeWeightedTotals (queryHistory db f.product_group_id) t).length))
    ∧ ((processProductGroup db f t).map GradeForecast.heats).sum
      = ((gradeWeightedTotals (queryHistory db f.product_group_id) t).length : ℤ)
        * f.heats.fdiv
          ((gradeWeightedTotals (queryHistory db f.product_group_id) t).length) := by
  have hzsum :
      ((gradeWeightedTotals (queryHistory db f.product_group_id) t).map Prod.snd).sum
        = 0 :=
    List.sum_eq_zero fun x hx => by
      obtain ⟨p, hp, rfl⟩ := List.mem_map.mp hx
      exact hz p hp
  have hpp : processProductGroup db f t
      = distributeEqually
          ((gradeWeightedTotals (queryHistory db f.product_group_id) t).map Prod.fst)
          (((db.product_groups.find? fun g =>
              decide (g.id = f.product_group_id)).map ProductGroup.name).getD "")
          f.heats := by
    simp [processProductGroup, hh, hzsum]
  constructor
  · intro g hg
    rw [hpp] at hg
    simp only [distributeEqually, List.mem_map, List.length_map] at hg
    obtain ⟨x, _, rfl⟩ := hg
    rfl
  · rw [hpp, distributeEqually_heats_sum, List.length_map]

/-- Witness for `equal_split_floor_drops_remainder`: target 10 heats, three
grades with history whose tons are all zero — each grade gets 3 heats and the
group total is 9, not 10. -/
theorem equal_split_floor_drops_remainder_witness :
    ((processProductGroup
        ⟨[⟨1, "G"⟩], [⟨1, "A", 1⟩, ⟨2, "B", 1⟩, ⟨3, "C", 1⟩],
          [⟨1, ⟨2024, 9, 1⟩, 10⟩],
          [⟨1, ⟨2024, 8, 1⟩, 0⟩, ⟨2, ⟨2024, 8, 1⟩, 0⟩, ⟨3, ⟨2024, 8, 1⟩, 0⟩]⟩
        ⟨1, ⟨2024, 9, 1⟩, 10⟩ ⟨2024, 9, 1⟩).map GradeForecast.heats).sum = 9 := by
  have h := equal_split_floor_drops_remainder
    ⟨[⟨1, "G"⟩], [⟨1, "A", 1⟩, ⟨2, "B", 1⟩, ⟨3, "C", 1⟩],
      [⟨1, ⟨2024, 9, 1⟩, 10⟩],
      [⟨1, ⟨2024, 8, 1⟩, 0⟩, ⟨2, ⟨2024, 8, 1⟩, 0⟩, ⟨3, ⟨2024, 8, 1⟩, 0⟩]⟩
    ⟨1, ⟨2024, 9, 1⟩, 10⟩ ⟨2024, 9, 1⟩
    (by simp [queryHistory])
    (by norm_num +decide [gradeWeightedTotals, dictAdd, queryHistory, getMonthWeight_eq,
      monthsAgo])
  rw [h.2]
  norm_num +decide [gradeWeightedTotals, dictAdd, queryHistory, getMonthWeight_eq,
    monthsAgo, Int.fdiv]

/-- Every output row of the proportional distribution stems from one
aggregated grade entry, and its heats is the floored exact share or one
more. -/
lemma distributeProportionally_mem {gwt : List (String × ℚ)} {group_name : String}
    {T : ℤ} {W : ℚ} (hW : 0 < W) (hT : 0 ≤ T) (hw : ∀ p ∈ gwt, 0 ≤ p.2) :
    ∀ g ∈ distributeProportionally gwt group_name T W,
      ∃ p ∈ gwt, g.grade = p.1 ∧
        (g.heats = ⌊p.2 / W * T⌋ ∨ g.heats = ⌊p.2 / W * T⌋ + 1) := by
  intro g hg
  have hg' : ∃ q ∈ giveExtras
      ((gwt.map (allocationOf W T)).insertionSort fun a b => b.2.2 ≤ a.2.2)
      (T - ((gwt.map (allocationOf W T)).map fun a => a.2.1).sum),
      g = { grade := q.1, product_group := group_name, heats := q.2 } := by
    obtain ⟨q, hq, hqg⟩ := List.mem_map.mp hg
    exact ⟨q, hq, hqg.symm⟩
  obtain ⟨q, hq, rfl⟩ := hg'
  obtain ⟨a, ha, hq1, hq2⟩ := giveExtras_mem hq
  have ha' : a ∈ gwt.map (allocationOf W T) :=
    (List.perm_insertionSort _ _).mem_iff.mp ha
  obtain ⟨p, hp, hpa⟩ := List.mem_map.mp ha'
  have hf := (allocationOf_facts hW T hT (hw p hp)).1
  rw [← hpa, hf] at hq1 hq2
  refine ⟨p, hp, by simpa using hq1, ?_⟩
  simpa using hq2

/-- C6: with a non-negative forecast target and non-negative history tons,
every heats value the allocator outputs for the group is non-negative, on
both the equal-split and the proportional path. -/
theorem output_heats_nonneg (db : Db) (f : MonthlyForecast) (t : PyDate)
    (hT : 0 ≤ f.heats) (htons : ∀ h ∈ db.production_history, 0 ≤ h.tons) :
    ∀ g ∈ processProductGroup db f t, 0 ≤ g.heats := by
  intro gof hg
  have hrows : ∀ r ∈ queryHistory db f.product_group_id, 0 ≤ r.tons := by
    intro r hr
    simp only [queryHistory, List.mem_flatMap, List.mem_filter, List.mem_map] at hr
    obtain ⟨sg, ⟨_, _⟩, h, ⟨hh, _⟩, rfl⟩ := hr
    exact htons h hh
  have hvals : ∀ p ∈ gradeWeightedTotals (queryHistory db f.product_group_id) t, 0 ≤ p.2 :=
    gradeWeightedTotals_nonneg hrows
  by_cases hhist : queryHistory db f.product_group_id = []
  · simp [processProductGroup, hhist] at hg
  by_cases hzero :
      ((gradeWeightedTotals (queryHistory db f.product_group_id) t).map Prod.snd).sum = 0
  · have hppg : processProductGroup db f t
        = distributeEqually
            ((gradeWeightedTotals (queryHistory db f.product_group_id) t).map Prod.fst)
            (((db.product_groups.find? fun g =>
                decide (g.id = f.product_group_id)).map ProductGroup.name).getD "")
            f.heats := by
      simp [processProductGroup, hhist, hzero]
    rw [hppg] at hg
    simp only [distributeEqually, List.mem_map] at hg
    obtain ⟨x, _, rfl⟩ := hg
    exact Int.fdiv_nonneg hT (Int.natCast_nonneg _)
  · have hpos :
        0 < ((gradeWeightedTotals (queryHistory db f.product_group_id) t).map Prod.snd).sum := by
      refine lt_of_le_of_ne (List.sum_nonneg ?_) (Ne.symm hzero)
      intro x hx
      obtain ⟨p, hp, rfl⟩ := List.mem_map.mp hx
      exact hvals p hp
    have hppg : processProductGroup db f t
        = distributeProportionally
            (gradeWeightedTotals (queryHistory db f.product_group_id) t)
            (((db.product_groups.find? fun g =>
                decide (g.id = f.product_group_id)).map ProductGroup.name).getD "")
            f.heats
            ((gradeWeightedTotals (queryHistory db f.product_group_id) t).map Prod.snd).sum := by
      simp [processProductGroup, hhist, hzero]
    rw [hppg] at hg
    obtain ⟨p, hp, _, hh⟩ := distributeProportionally_mem hpos hT hvals gof hg
    have hfl : 0 ≤ ⌊p.2 /
        ((gradeWeightedTotals (queryHistory db f.product_group_id) t).map Prod.snd).sum
          * (f.heats : ℚ)⌋ :=
      Int.floor_nonneg.mpr
        (mul_nonneg (div_nonneg (hvals p hp) hpos.le) (by exact_mod_cast hT))
    rcases hh with h | h <;> omega

/-- Witness for `output_heats_nonneg`: two grades with 10 and 30 tons of
history and a 7-heat target. -/
theorem output_heats_nonneg_witness :
    (0 : ℤ) ≤ (7 : ℤ)
    ∧ ∀ g ∈ processProductGroup
        ⟨[⟨1, "G"⟩], [⟨1, "A", 1⟩, ⟨2, "B", 1⟩],
          [⟨1, ⟨2024, 9, 1⟩, 7⟩],
          [⟨1, ⟨2024, 8, 1⟩, 10⟩, ⟨2, ⟨2024, 6, 1⟩, 30⟩]⟩
        ⟨1, ⟨2024, 9, 1⟩, 7⟩ ⟨2024, 9, 1⟩, 0 ≤ g.heats :=
  ⟨by norm_num,
    output_heats_nonneg _ _ _ (by norm_num) (by norm_num)⟩

/-- The stable sort leaves the list ordered by descending remainder. -/
lemma insertionSort_rem_sorted (l : List (String × ℤ × ℚ)) :
    (l.insertionSort fun a b => b.2.2 ≤ a.2.2).Pairwise fun a b => b.2.2 ≤ a.2.2 := by
  haveI : IsTotal (String × ℤ × ℚ) fun a b => b.2.2 ≤ a.2.2 :=
    ⟨fun a b => le_total b.2.2 a.2.2⟩
  haveI : IsTrans (String × ℤ × ℚ) fun a b => b.2.2 ≤ a.2.2 :=
    ⟨fun _ _ _ h1 h2 => le_trans h2 h1⟩
  exact List.sorted_insertionSort _ l

/-- Subtraction distributes over list sums of maps. -/
lemma sum_map_sub {α : Type} (l : List α) (f g : α → ℚ) :
    (l.map fun a => f a - g a).sum = (l.map f).sum - (l.map g).sum := by
  induction l with
  | nil => simp
  | cons a t ih =>
    simp only [List.map_cons, List.sum_cons, ih]
    ring

/-- Refined form of `giveExtras_mem` over a descending-remainder sorted list
with remainders in `[0, 1)` summing to at least the counter: an element that
receives an extra heat has a strictly positive remainder. -/
lemma giveExtras_mem_strong {l : List (String × ℤ × ℚ)} {k : ℤ} {p : String × ℤ}
    (hsort : l.Pairwise fun a b => b.2.2 ≤ a.2.2)
    (hrem : ∀ a ∈ l, 0 ≤ a.2.2 ∧ a.2.2 < 1)
    (hk : (k : ℚ) ≤ (l.map fun a => a.2.2).sum)
    (hp : p ∈ giveExtras l k) :
    ∃ a ∈ l, p.1 = a.1 ∧ (p.2 = a.2.1 ∨ (p.2 = a.2.1 + 1 ∧ 0 < a.2.2)) := by
  induction l generalizing k with
  | nil => simp [giveExtras] at hp
  | cons a t ih =>
    by_cases hkpos : 0 < k
    · simp only [giveExtras, List.mem_cons] at hp
      rcases hp with hp | hp
      · subst hp
        refine ⟨a, List.mem_cons_self a t, rfl, Or.inr ⟨by simp [hkpos], ?_⟩⟩
        by_contra hle
        push_neg at hle
        have ha0 : a.2.2 = 0 := le_antisymm hle (hrem a (List.mem_cons_self a t)).1
        have hsum0 : ((a :: t).map fun x => x.2.2).sum = 0 := by
          refine List.sum_eq_zero fun x hx => ?_
          simp only [List.map_cons, List.mem_cons] at hx
          rcases hx with hx | hx
          · rw [hx, ha0]
          · obtain ⟨b, hb, rfl⟩ := List.mem_map.mp hx
            exact le_antisymm (ha0 ▸ (List.pairwise_cons.mp hsort).1 b hb)
              (hrem b (List.mem_cons_of_mem a hb)).1
        rw [hsum0] at hk
        have h1 : (1 : ℚ) ≤ (k : ℚ) := by exact_mod_cast hkpos
        linarith
      · have ha1 : a.2.2 < 1 := (hrem a (List.mem_cons_self a t)).2
        have htail : ((k - 1 : ℤ) : ℚ) ≤ (t.map fun x => x.2.2).sum := by
          have hsum : ((a :: t).map fun x => x.2.2).sum
              = a.2.2 + (t.map fun x => x.2.2).sum := by simp
          rw [hsum] at hk
          push_cast
          linarith
        obtain ⟨b, hb, h1, h2⟩ := ih (List.pairwise_cons.mp hsort).2
          (fun x hx => hrem x (List.mem_cons_of_mem a hx)) htail hp
        exact ⟨b, List.mem_cons_of_mem a hb, h1, h2⟩
    · push_neg at hkpos
      rw [giveExtras_of_nonpos hkpos] at hp
      obtain ⟨b, hb, hpb⟩ := List.mem_map.mp hp
      exact ⟨b, hb, by rw [← hpb], Or.inl (by rw [← hpb])⟩

/-- The multiset of grade names output by the proportional distribution is
exactly the multiset of aggregated grade names. -/
lemma distributeProportionally_grades_perm (gwt : List (String × ℚ))
    (gname : String) (T : ℤ) (W : ℚ) :
    ((distributeProportionally gwt gname T W).map GradeForecast.grade).Perm
      (gwt.map Prod.fst) := by
  unfold distributeProportionally
  rw [List.map_map]
  show ((giveExtras ((gwt.map (allocationOf W T)).insertionSort fun a b => b.2.2 ≤ a.2.2)
      (T - ((gwt.map (allocationOf W T)).map fun a => a.2.1).sum)).map Prod.fst).Perm
    (gwt.map Prod.fst)
  rw [giveExtras_map_fst]
  have hperm := ((List.perm_insertionSort (fun a b : String × ℤ × ℚ => b.2.2 ≤ a.2.2)
    (gwt.map (allocationOf W T))).map fun a => a.1)
  refine hperm.trans (List.Perm.of_eq ?_)
  rw [List.map_map]
  rfl

/-- Refined membership: a grade receiving the extra heat has a strictly
positive fractional remainder, so its exact share strictly exceeds the
floor. -/
lemma distributeProportionally_mem_strong {gwt : List (String × ℚ)}
    {gname : String} {T : ℤ} (hT : 0 ≤ T) (hw : ∀ p ∈ gwt, 0 ≤ p.2)
    (hpos : 0 < (gwt.map Prod.snd).sum) :
    ∀ g ∈ distributeProportionally gwt gname T ((gwt.map Prod.snd).sum),
      ∃ p ∈ gwt, g.grade = p.1 ∧
        (g.heats = ⌊p.2 / (gwt.map Prod.snd).sum * T⌋ ∨
          (g.heats = ⌊p.2 / (gwt.map Prod.snd).sum * T⌋ + 1 ∧
            ((⌊p.2 / (gwt.map Prod.snd).sum * T⌋ : ℚ)
              < p.2 / (gwt.map Prod.snd).sum * T))) := by
  intro g hg
  set W : ℚ := (gwt.map Prod.snd).sum with hWdef
  have hW : 0 < W := hpos
  have hcomp : gwt.map (allocationOf W T)
      = gwt.map fun p => (p.1, ⌊p.2 / W * T⌋, p.2 / W * T - (⌊p.2 / W * T⌋ : ℚ)) :=
    List.map_congr_left fun p hp => (allocationOf_facts hW T hT (hw p hp)).1
  have hremfacts : ∀ a ∈ gwt.map (allocationOf W T), 0 ≤ a.2.2 ∧ a.2.2 < 1 := by
    intro a ha
    obtain ⟨p, hp, hpa⟩ := List.mem_map.mp ha
    rw [← hpa, (allocationOf_facts hW T hT (hw p hp)).1]
    exact ⟨Int.fract_nonneg _, Int.fract_lt_one _⟩
  have hperm : ((gwt.map (allocationOf W T)).insertionSort fun a b => b.2.2 ≤ a.2.2).Perm
      (gwt.map (allocationOf W T)) := List.perm_insertionSort _ _
  have hremS : ∀ a ∈ (gwt.map (allocationOf W T)).insertionSort
      fun a b => b.2.2 ≤ a.2.2, 0 ≤ a.2.2 ∧ a.2.2 < 1 :=
    fun a ha => hremfacts a (hperm.subset ha)
  have hfl : (gwt.map (allocationOf W T)).map (fun a => a.2.1)
      = gwt.map fun p => ⌊p.2 / W * T⌋ := by
    rw [hcomp, List.map_map]
    rfl
  have hshares : (gwt.map fun p => p.2 / W * T).sum = (T : ℚ) := by
    rw [sum_map_shares, ← hWdef, div_self hW.ne', one_mul]
  have hremsum : ((((gwt.map (allocationOf W T)).insertionSort
      fun a b => b.2.2 ≤ a.2.2).map fun a => a.2.2).sum)
      = (T : ℚ) - ((((gwt.map (allocationOf W T)).map fun a => a.2.1).sum : ℤ) : ℚ) := by
    have e1 : ((((gwt.map (allocationOf W T)).insertionSort
        fun a b => b.2.2 ≤ a.2.2).map fun a => a.2.2).sum)
        = ((gwt.map (allocationOf W T)).map fun a => a.2.2).sum := (hperm.map _).sum_eq
    have e2 : (gwt.map (allocationOf W T)).map (fun a => a.2.2)
        = gwt.map fun p => p.2 / W * T - (⌊p.2 / W * T⌋ : ℚ) := by
      rw [hcomp, List.map_map]
      rfl
    rw [e1, e2, sum_map_sub, hshares, hfl, intCast_sum_map]
  have hkle : (((T - ((gwt.map (allocationOf W T)).map fun a => a.2.1).sum : ℤ)) : ℚ)
      ≤ (((gwt.map (allocationOf W T)).insertionSort
        fun a b => b.2.2 ≤ a.2.2).map fun a => a.2.2).sum := by
    rw [hremsum]
    push_cast
    exact le_refl _
  obtain ⟨q, hq, rfl⟩ : ∃ q ∈ giveExtras
      ((gwt.map (allocationOf W T)).insertionSort fun a b => b.2.2 ≤ a.2.2)
      (T - ((gwt.map (allocationOf W T)).map fun a => a.2.1).sum),
      g = { grade := q.1, product_group := gname, heats := q.2 } := by
    obtain ⟨q, hq, hqg⟩ := List.mem_map.mp hg
    exact ⟨q, hq, hqg.symm⟩
  obtain ⟨a, ha, hq1, hq2⟩ :=
    giveExtras_mem_strong (insertionSort_rem_sorted _) hremS hkle hq
  obtain ⟨p, hp, hpa⟩ := List.mem_map.mp (hperm.subset ha)
  rw [← hpa, (allocationOf_facts hW T hT (hw p hp)).1] at hq1 hq2
  refine ⟨p, hp, by simpa using hq1, ?_⟩
  rcases hq2 with h | ⟨h, hfrac⟩
  · left
    simpa using h
  · right
    refine ⟨by simpa using h, ?_⟩
    have hfrac' : (0 : ℚ) < p.2 / W * T - (⌊p.2 / W * T⌋ : ℚ) := by simpa using hfrac
    linarith

/-- C9: in the proportional path every grade with at least one history row
appears exactly once in the output (duplicate history rows are aggregated per
grade name), its heats is `⌊share⌋` or `⌊share⌋ + 1` for its exact
proportional share, and — because the extra heat only ever reaches grades
with a strictly positive fractional remainder — the allocation differs from
the exact share by strictly less than one heat. -/
theorem proportional_per_grade_bounds (hist : List HistoryRow) (t : PyDate)
    (gname : String) (T : ℤ) (hT : 0 ≤ T)
    (htons : ∀ r ∈ hist, 0 ≤ r.tons)
    (hpos : 0 < ((gradeWeightedTotals hist t).map Prod.snd).sum) :
    (∀ r ∈ hist,
      ((distributeProportionally (gradeWeightedTotals hist t) gname T
        (((gradeWeightedTotals hist t).map Prod.snd).sum)).map
          GradeForecast.grade).count r.name = 1)
    ∧ ∀ g ∈ distributeProportionally (gradeWeightedTotals hist t) gname T
        (((gradeWeightedTotals hist t).map Prod.snd).sum),
      ∃ w : ℚ, (g.grade, w) ∈ gradeWeightedTotals hist t ∧
        (g.heats = ⌊w / ((gradeWeightedTotals hist t).map Prod.snd).sum * T⌋ ∨
          g.heats = ⌊w / ((gradeWeightedTotals hist t).map Prod.snd).sum * T⌋ + 1) ∧
        |(g.heats : ℚ) - w / ((gradeWeightedTotals hist t).map Prod.snd).sum * T| < 1 := by
  have hvals : ∀ p ∈ gradeWeightedTotals hist t, 0 ≤ p.2 :=
    gradeWeightedTotals_nonneg htons
  constructor
  · intro r hr
    rw [(distributeProportionally_grades_perm (gradeWeightedTotals hist t) gname T
      (((gradeWeightedTotals hist t).map Prod.snd).sum)).count_eq]
    exact List.count_eq_one_of_mem (gradeWeightedTotals_keys_nodup hist t)
      (name_mem_gradeWeightedTotals hr)
  · intro g hg
    obtain ⟨p, hp, hgrade, hh⟩ :=
      distributeProportionally_mem_strong hT hvals hpos g hg
    refine ⟨p.2, by rw [hgrade, Prod.mk.eta]; exact hp, ?_, ?_⟩
    · rcases hh with h | ⟨h, _⟩
      · exact Or.inl h
      · exact Or.inr h
    · have hle := Int.floor_le (p.2 / ((gradeWeightedTotals hist t).map Prod.snd).sum * T)
      have hlt := Int.lt_floor_add_one
        (p.2 / ((gradeWeightedTotals hist t).map Prod.snd).sum * T)
      rcases hh with h | ⟨h, hstrict⟩
      · rw [h, abs_lt]
        constructor <;> linarith
      · rw [h, abs_lt]
        push_cast
        constructor <;> linarith

/-- Witness for `proportional_per_grade_bounds`: grade A with 10 tons one
month before target and grade B with 30 tons three months before target,
target 7 heats. -/
theorem proportional_per_grade_bounds_witness :
    (∀ r ∈ [(⟨"A", ⟨2024, 8, 1⟩, 10⟩ : HistoryRow), ⟨"B", ⟨2024, 6, 1⟩, 30⟩],
      ((distributeProportionally
        (gradeWeightedTotals
          [(⟨"A", ⟨2024, 8, 1⟩, 10⟩ : HistoryRow), ⟨"B", ⟨2024, 6, 1⟩, 30⟩] ⟨2024, 9, 1⟩)
        "G" 7
        (((gradeWeightedTotals
          [(⟨"A", ⟨2024, 8, 1⟩, 10⟩ : HistoryRow), ⟨"B", ⟨2024, 6, 1⟩, 30⟩]
            ⟨2024, 9, 1⟩).map Prod.snd).sum)).map
          GradeForecast.grade).count r.name = 1)
    ∧ ∀ g ∈ distributeProportionally
        (gradeWeightedTotals
          [(⟨"A", ⟨2024, 8, 1⟩, 10⟩ : HistoryRow), ⟨"B", ⟨2024, 6, 1⟩, 30⟩] ⟨2024, 9, 1⟩)
        "G" 7
        (((gradeWeightedTotals
          [(⟨"A", ⟨2024, 8, 1⟩, 10⟩ : HistoryRow), ⟨"B", ⟨2024, 6, 1⟩, 30⟩]
            ⟨2024, 9, 1⟩).map Prod.snd).sum),
      ∃ w : ℚ, (g.grade, w) ∈ gradeWeightedTotals
          [(⟨"A", ⟨2024, 8, 1⟩, 10⟩ : HistoryRow), ⟨"B", ⟨2024, 6, 1⟩, 30⟩] ⟨2024, 9, 1⟩ ∧
        (g.heats = ⌊w / (((gradeWeightedTotals
            [(⟨"A", ⟨2024, 8, 1⟩, 10⟩ : HistoryRow), ⟨"B", ⟨2024, 6, 1⟩, 30⟩]
              ⟨2024, 9, 1⟩).map Prod.snd).sum) * (7 : ℤ)⌋ ∨
          g.heats = ⌊w / (((gradeWeightedTotals
            [(⟨"A", ⟨2024, 8, 1⟩, 10⟩ : HistoryRow), ⟨"B", ⟨2024, 6, 1⟩, 30⟩]
              ⟨2024, 9, 1⟩).map Prod.snd).sum) * (7 : ℤ)⌋ + 1) ∧
        |(g.heats : ℚ) - w / (((gradeWeightedTotals
            [(⟨"A", ⟨2024, 8, 1⟩, 10⟩ : HistoryRow), ⟨"B", ⟨2024, 6, 1⟩, 30⟩]
              ⟨2024, 9, 1⟩).map Prod.snd).sum) * (7 : ℤ)| < 1 :=
  proportional_per_grade_bounds
    [(⟨"A", ⟨2024, 8, 1⟩, 10⟩ : HistoryRow), ⟨"B", ⟨2024, 6, 1⟩, 30⟩] ⟨2024, 9, 1⟩
    "G" 7 (by norm_num) (by norm_num)
    (by norm_num +decide [gradeWeightedTotals, dictAdd, getMonthWeight_eq, monthsAgo])

/-- Accumulating a loop body with `results.extend(...)` equals concatenating
the per-item outputs. -/
lemma foldl_append_eq_flatten {α β : Type} (l : List α) (f : α → List β) :
    l.foldl (fun acc a => acc ++ f a) [] = (l.map f).flatten := by
  suffices h : ∀ start : List β,
      l.foldl (fun acc a => acc ++ f a) start = start ++ (l.map f).flatten by
    simpa using h []
  induction l with
  | nil => intro s; simp
  | cons a t ih => intro s; simp [ih]

/-- C7: `calculate` returns exactly the concatenation, over every
`MonthlyForecast` row whose month equals the target month, of the allocator's
output for that row's product group; groups with no forecast entry for the
month contribute no entries, and no error arises (`calculate` is total).
The SQL inner join with `product_groups` drops nothing under referential
integrity, stated as the hypothesis `hfk`. -/
theorem calculate_concat_of_matching_forecasts (db : Db) (target : PyDate)
    (hfk : ∀ f ∈ db.monthly_forecasts,
      ∃ g ∈ db.product_groups, g.id = f.product_group_id) :
    calculate db target
      = ((db.monthly_forecasts.filter fun f => decide (f.month = target)).map
          fun f => processProductGroup db f target).flatten := by
  unfold calculate
  rw [foldl_append_eq_flatten]
  suffices h : db.monthly_forecasts.filter
      (fun f => decide (f.month = target) &&
        db.product_groups.any fun g => decide (g.id = f.product_group_id))
      = db.monthly_forecasts.filter fun f => decide (f.month = target) by
    rw [h]
  refine List.filter_congr fun f hf => ?_
  obtain ⟨g, hg, hgid⟩ := hfk f hf
  have hany : (db.product_groups.any fun g => decide (g.id = f.product_group_id)) = true :=
    List.any_eq_true.mpr ⟨g, hg, by simp [hgid]⟩
  rw [hany, Bool.and_true]

/-- Witness for `calculate_concat_of_matching_forecasts`: a database with two
product groups, one forecast entry matching September 2024 and one for
another month. -/
theorem calculate_concat_of_matching_forecasts_witness :
    calculate
      ⟨[⟨1, "G"⟩, ⟨2, "H"⟩], [⟨1, "A", 1⟩],
        [⟨1, ⟨2024, 9, 1⟩, 7⟩, ⟨2, ⟨2024, 10, 1⟩, 3⟩],
        [⟨1, ⟨2024, 8, 1⟩, 10⟩]⟩ ⟨2024, 9, 1⟩
      = ((([⟨1, ⟨2024, 9, 1⟩, 7⟩, ⟨2, ⟨2024, 10, 1⟩, 3⟩] :
            List MonthlyForecast).filter fun f => decide (f.month = ⟨2024, 9, 1⟩)).map
          fun f => processProductGroup
            ⟨[⟨1, "G"⟩, ⟨2, "H"⟩], [⟨1, "A", 1⟩],
              [⟨1, ⟨2024, 9, 1⟩, 7⟩, ⟨2, ⟨2024, 10, 1⟩, 3⟩],
              [⟨1, ⟨2024, 8, 1⟩, 10⟩]⟩ f ⟨2024, 9, 1⟩).flatten :=
  calculate_concat_of_matching_forecasts _ _ (by decide)

/-- C10: the forecast endpoint answers HTTP 400 for every (year, month)
other than (2024, 9) — independently of the stored data, so the Forecaster
is never invoked there — and every successful response is exactly the
allocation engine's output for target month 2024-09-01. -/
theorem forecast_endpoint_availability_gate :
    (∀ (year month : ℤ) (db : Db), (year, month) ≠ ((2024 : ℤ), (9 : ℤ)) →
      getForecast year month db = ForecastResult.httpError 400
        "Forecast for this month is not available. This version only supports September 2024 (2024/9).")
    ∧ ∀ (year month : ℤ) (db : Db) (r : List GradeForecast),
        getForecast year month db = ForecastResult.ok r →
          year = 2024 ∧ month = 9 ∧ r = calculate db ⟨2024, 9, 1⟩ := by
  constructor
  · intro y m db h
    have hne : (y, m) ∉ AVAILABLE_FORECASTS := by
      intro hmem
      exact h (by simpa [AVAILABLE_FORECASTS] using hmem)
    unfold getForecast
    rw [if_neg hne]
  · intro y m db r h
    by_cases hmem : (y, m) ∈ AVAILABLE_FORECASTS
    · have heq : (y, m) = ((2024 : ℤ), (9 : ℤ)) := by
        simpa [AVAILABLE_FORECASTS] using hmem
      have hy : y = 2024 := congrArg Prod.fst heq
      have hm : m = 9 := congrArg Prod.snd heq
      subst hy
      subst hm
      unfold getForecast at h
      rw [if_pos hmem] at h
      injection h with h
      exact ⟨rfl, rfl, h.symm⟩
    · unfold getForecast at h
      rw [if_neg hmem] at h
      cases h

/-- Witness for `forecast_endpoint_availability_gate`: May 2023 is rejected
with HTTP 400 on an empty database. -/
theorem forecast_endpoint_availability_gate_witness :
    getForecast 2023 5 ⟨[], [], [], []⟩ = ForecastResult.httpError 400
      "Forecast for this month is not available. This version only supports September 2024 (2024/9)." :=
  forecast_endpoint_availability_gate.1 2023 5 ⟨[], [], [], []⟩ (by decide)

/-- C8: the bulk replace of monthly forecasts is transactional.  Whenever
anything fails — the parser raising, an empty record set, or a storage
failure at commit time after the delete-then-insert has been staged — the
persisted database is returned unchanged and a distinguishable HTTP error is
surfaced; a successful replace installs a record set computed solely from the
upload, regardless of the previously stored forecasts (full replace, never a
merge). -/
theorem upload_monthly_forecast_transactional (db : Db)
    (parsed : Except String (List MonthlyForecastRecord)) (next_id : ℤ) :
    ((uploadMonthlyForecast db parsed false next_id).1 = db
      ∧ ∃ status detail,
          (uploadMonthlyForecast db parsed false next_id).2
            = UploadResult.httpError status detail)
    ∧ (∀ e, (uploadMonthlyForecast db (Except.error e) true next_id).1 = db
        ∧ (uploadMonthlyForecast db (Except.error e) true next_id).2
            = UploadResult.httpError 500 ("Error processing file: " ++ e))
    ∧ ∀ records, records ≠ [] → ∀ fs2 : List MonthlyForecast,
        (uploadMonthlyForecast db (Except.ok records) true next_id).1.monthly_forecasts
          = (uploadMonthlyForecast
              ⟨db.product_groups, db.steel_grades, fs2, db.production_history⟩
              (Except.ok records) true next_id).1.monthly_forecasts := by
  refine ⟨?_, ?_, ?_⟩
  · cases parsed with
    | error e => exact ⟨rfl, 500, "Error processing file: " ++ e, rfl⟩
    | ok records =>
      by_cases hr : records = []
      · refine ⟨?_, 400, "No valid records found in the uploaded file", ?_⟩ <;>
          simp [uploadMonthlyForecast, hr]
      · refine ⟨?_, 500, "Error processing file: commit failed", ?_⟩ <;>
          simp [uploadMonthlyForecast, hr]
  · intro e
    exact ⟨rfl, rfl⟩
  · intro records hr fs2
    simp [uploadMonthlyForecast, hr]

/-- Witness for `upload_monthly_forecast_transactional`: one uploaded record
against a database already holding a forecast row; a commit failure leaves
the row intact and surfaces an error, and a successful replace produces the
same table whether the prior set held that row or was empty. -/
theorem upload_monthly_forecast_transactional_witness :
    ((uploadMonthlyForecast ⟨[⟨1, "G"⟩], [], [⟨1, ⟨2024, 8, 1⟩, 4⟩], []⟩
        (Except.ok [⟨"H", ⟨2024, 9, 1⟩, 6⟩]) false 5).1
          = ⟨[⟨1, "G"⟩], [], [⟨1, ⟨2024, 8, 1⟩, 4⟩], []⟩
      ∧ ∃ status detail,
          (uploadMonthlyForecast ⟨[⟨1, "G"⟩], [], [⟨1, ⟨2024, 8, 1⟩, 4⟩], []⟩
            (Except.ok [⟨"H", ⟨2024, 9, 1⟩, 6⟩]) false 5).2
              = UploadResult.httpError status detail)
    ∧ (uploadMonthlyForecast ⟨[⟨1, "G"⟩], [], [⟨1, ⟨2024, 8, 1⟩, 4⟩], []⟩
        (Except.ok [⟨"H", ⟨2024, 9, 1⟩, 6⟩]) true 5).1.monthly_forecasts
      = (uploadMonthlyForecast ⟨[⟨1, "G"⟩], [], [], []⟩
          (Except.ok [⟨"H", ⟨2024, 9, 1⟩, 6⟩]) true 5).1.monthly_forecasts :=
  ⟨(upload_monthly_forecast_transactional ⟨[⟨1, "G"⟩], [], [⟨1, ⟨2024, 8, 1⟩, 4⟩], []⟩
      (Except.ok [⟨"H", ⟨2024, 9, 1⟩, 6⟩]) 5).1,
    (upload_monthly_forecast_transactional ⟨[⟨1, "G"⟩], [], [⟨1, ⟨2024, 8, 1⟩, 4⟩], []⟩
      (Except.ok [⟨"H", ⟨2024, 9, 1⟩, 6⟩]) 5).2.2 [⟨"H", ⟨2024, 9, 1⟩, 6⟩] (by decide) []⟩

end FDM
